import Mathlib

/-!
Verification of the branch-and-bound TSP core of this repository
(`src/bb_tsp.py`), shallowly embedded in Lean.

Conventions of the embedding:
* a distance matrix is a pair of a function `D : ℕ → ℕ → ℚ` and a size `n`
  (entries are exact rationals; the source uses floats);
* Python `float('inf')`, used only for `best_cost`, is modelled by
  `Option ℚ` with `none` standing for `+∞`;
* a computation that would raise `IndexError` in Python is modelled by an
  `Option`-valued function returning `none`;
* the wall clock is modelled by an oracle `clock : ℕ → ℚ` giving the value
  of `time.time() - start_time` at the k-th top-of-loop check, and the
  `while` loop is run on explicit fuel (the search tree is finite, so any
  sufficiently large fuel lets the frontier empty out).
-/

/-- Insert a rational into an already ascending list, keeping it ascending.
Helper for `sortAsc`. -/
def insertAsc (x : ℚ) : List ℚ → List ℚ
  | [] => [x]
  | y :: ys => if x ≤ y then x :: y :: ys else y :: insertAsc x ys

/-- Ascending sort of a list of rationals; the model of Python `sorted`
(the two agree on every input since sorted lists over a linear order are
determined by their multiset of elements). -/
def sortAsc : List ℚ → List ℚ
  | [] => []
  | x :: xs => insertAsc x (sortAsc xs)

/-- The minimum of a nonempty list, `none` on the empty list.
Model of Python `min`. -/
def listMin : List ℚ → Option ℚ
  | [] => none
  | x :: xs => some (xs.foldl min x)

/-- `mins[0] + mins[1]` of `mins = sorted([row[j] for j in range(n) if j != i])`
in `lower_bound_two_min_edges`; `none` when `mins` has fewer than two
elements, which is exactly the `IndexError` of the source. -/
def twoSmallest (D : ℕ → ℕ → ℚ) (n i : ℕ) : Option ℚ :=
  match sortAsc (((List.range n).filter (fun j => j ≠ i)).map (fun j => D i j)) with
  | m0 :: m1 :: _ => some (m0 + m1)
  | _ => none

/-- The loop `for i in unvisited: s += mins[0] + mins[1]` of
`lower_bound_two_min_edges`, with `none` propagating a raised `IndexError`. -/
def sumTwoMins (D : ℕ → ℕ → ℚ) (n : ℕ) : List ℕ → Option ℚ
  | [] => some 0
  | i :: rest =>
    match twoSmallest D n i, sumTwoMins D n rest with
    | some a, some s => some (a + s)
    | _, _ => none

/-- `lower_bound_two_min_edges(dist_matrix, path, cost_so_far, unvisited, start)`
from `src/bb_tsp.py`: `cost_so_far`, plus the cheapest edge from the last
path city to an unvisited city (to `start` if none remain), plus half the
sum over unvisited cities of their two smallest outgoing edges. -/
def lower_bound_two_min_edges (D : ℕ → ℕ → ℚ) (n : ℕ) (path : List ℕ)
    (cost_so_far : ℚ) (unvisited : List ℕ) (start : ℕ) : Option ℚ :=
  match path.getLast? with
  | none => none
  | some last =>
    let min_from_last : ℚ :=
      match unvisited with
      | [] => D last start
      | u :: us => (us.map (fun j => D last j)).foldl min (D last u)
    match sumTwoMins D n unvisited with
    | none => none
    | some s => some (cost_so_far + min_from_last + s / 2)

/-- A frontier entry: the tuple `(bound, cost_so_far, path, unvisited)`
pushed onto the heap by the solver. -/
structure Node where
  bound : ℚ
  cost : ℚ
  path : List ℕ
  unvisited : List ℕ
deriving DecidableEq

/-- Strict lexicographic comparison of lists of naturals; the model of
Python list/tuple comparison (a strict prefix is smaller). -/
def listLtB : List ℕ → List ℕ → Bool
  | [], [] => false
  | [], _ :: _ => true
  | _ :: _, [] => false
  | a :: as, b :: bs => if a < b then true else if b < a then false else listLtB as bs

/-- One component step of Python tuple comparison: strictly smaller first
component decides `true`, strictly greater decides `false`, otherwise the
comparison continues with `k`. -/
def cmpThen {α : Type} (lt : α → α → Bool) (x y : α) (k : Bool) : Bool :=
  if lt x y then true else if lt y x then false else k

/-- Strict comparison of rationals as a Bool; the model of float `<`. -/
def qltB (x y : ℚ) : Bool := decide (x < y)

/-- Strict comparison of two frontier entries: Python tuple comparison of
`(bound, cost_so_far, path, unvisited)`, which is what `heapq` orders by. -/
def nodeLtB (a b : Node) : Bool :=
  cmpThen qltB a.bound b.bound
    (cmpThen qltB a.cost b.cost
      (cmpThen listLtB a.path b.path
        (listLtB a.unvisited b.unvisited)))

/-- The composite order named by the specification: primary key bound,
secondary key accumulated cost, tertiary key the visited-city sequence. -/
def key3LtB (a b : Node) : Bool :=
  cmpThen qltB a.bound b.bound
    (cmpThen qltB a.cost b.cost
      (listLtB a.path b.path))

/-- The smaller of `m` and all elements of the list under `nodeLtB`
(first-seen wins among equals). -/
def findMin (m : Node) : List Node → Node
  | [] => m
  | x :: xs => findMin (if nodeLtB x m then x else m) xs

/-- `heapq.heappop`: remove and return a least element of the frontier
under the full tuple order. -/
def popMin : List Node → Option (Node × List Node)
  | [] => none
  | x :: xs =>
    let m := findMin x xs
    some (m, (x :: xs).erase m)

/-- The `BBResult` record of the source (without `time_seconds`, which is
wall-clock output): `best_cost = none` models the initial `float('inf')`. -/
structure BBResult where
  best_cost : Option ℚ
  best_tour : Option (List ℕ)
  nodes_expanded : ℕ
  max_depth : ℕ
deriving DecidableEq

/-- `x < best_cost` under the `float('inf')` reading of `none`. -/
def ltOpt (x : ℚ) : Option ℚ → Bool
  | none => true
  | some c => decide (x < c)

/-- `x >= best_cost` under the `float('inf')` reading of `none`. -/
def geOpt (x : ℚ) : Option ℚ → Bool
  | none => false
  | some c => decide (c ≤ x)

/-- Full solver state: the heap, the evolving `BBResult`, and a ghost
trace `generated` recording every node ever pushed onto the heap (the
initial node included); the trace is not part of the source state, it only
lets claims speak about "every node ever generated". -/
structure SearchState where
  heap : List Node
  res : BBResult
  generated : List Node
deriving DecidableEq

/-- Sum of the matrix entries along consecutive elements of a city list:
the cost of a path (or of a closed tour when the list closes). -/
def pathCost (D : ℕ → ℕ → ℚ) : List ℕ → ℚ
  | a :: b :: rest => D a b + pathCost D (b :: rest)
  | _ => 0

/-- The `for idx, v in enumerate(unvisited)` loop of the solver: build the
children of a popped node, pushing a child only when its bound is strictly
below the incumbent; `before ++ after` is the current `unvisited` with the
current `v` removed. Returns `none` if a child bound raises. -/
def children (D : ℕ → ℕ → ℚ) (n : ℕ) (path : List ℕ) (cost : ℚ) (last : ℕ)
    (best : Option ℚ) : List ℕ → List ℕ → Option (List Node)
  | _, [] => some []
  | before, v :: after =>
    match lower_bound_two_min_edges D n (path ++ [v]) (cost + D last v)
        (before ++ after) 0 with
    | none => none
    | some nb =>
      match children D n path cost last best (before ++ [v]) after with
      | none => none
      | some rest =>
        if ltOpt nb best then
          some (⟨nb, cost + D last v, path ++ [v], before ++ after⟩ :: rest)
        else some rest

/-- One iteration of the solver's `while heap` body after the time check:
pop the least node, count it, prune on `bound >= best_cost`, close the
tour when `unvisited` is empty, otherwise push the surviving children. -/
def bbStep (D : ℕ → ℕ → ℚ) (n : ℕ) (st : SearchState) : Option SearchState :=
  match popMin st.heap with
  | none => some st
  | some (nd, rest) =>
    let res1 : BBResult :=
      { st.res with
        nodes_expanded := st.res.nodes_expanded + 1,
        max_depth := max st.res.max_depth nd.path.length }
    if geOpt nd.bound res1.best_cost then
      some { st with heap := rest, res := res1 }
    else
      match nd.unvisited with
      | [] =>
        match nd.path.getLast?, nd.path.head? with
        | some last, some first =>
          let total : ℚ := nd.cost + D last first
          if ltOpt total res1.best_cost then
            some { st with
                   heap := rest
                   res := { res1 with
                            best_cost := some total
                            best_tour := some (nd.path ++ [first]) } }
          else some { st with heap := rest, res := res1 }
        | _, _ => none
      | _ :: _ =>
        match nd.path.getLast? with
        | none => none
        | some last =>
          match children D n nd.path nd.cost last res1.best_cost [] nd.unvisited with
          | none => none
          | some cs =>
            some { heap := rest ++ cs
                   res := res1
                   generated := st.generated ++ cs }

/-- The `while heap` loop: before each pop, break when the clock reading
exceeds the time limit. `k` counts the checks performed so far; `none`
models a raised exception (or insufficient fuel while nodes remain). -/
def bbLoop (D : ℕ → ℕ → ℚ) (n : ℕ) (time_limit : ℚ) (clock : ℕ → ℚ) :
    ℕ → ℕ → SearchState → Option SearchState
  | 0, _, st => if st.heap.isEmpty then some st else none
  | fuel + 1, k, st =>
    if st.heap.isEmpty then some st
    else if time_limit < clock k then some st
    else
      match bbStep D n st with
      | none => none
      | some st1 => bbLoop D n time_limit clock fuel (k + 1) st1

/-- The solver state just before the loop: the single initial node
`(init_bound, 0.0, [0], (1, ..., n-1))`; `none` when the initial bound
computation raises. -/
def initState (D : ℕ → ℕ → ℚ) (n : ℕ) : Option SearchState :=
  match lower_bound_two_min_edges D n [0] 0 ((List.range n).drop 1) 0 with
  | none => none
  | some b =>
    let nd : Node := ⟨b, 0, [0], (List.range n).drop 1⟩
    some { heap := [nd]
           res := { best_cost := none, best_tour := none,
                    nodes_expanded := 0, max_depth := 0 }
           generated := [nd] }

/-- `branch_and_bound_tsp(dist_matrix, time_limit)` from `src/bb_tsp.py`.
Note the source function has no start-city parameter: the search always
starts from city `0`. -/
def branch_and_bound_tsp (D : ℕ → ℕ → ℚ) (n : ℕ) (time_limit : ℚ)
    (clock : ℕ → ℚ) (fuel : ℕ) : Option SearchState :=
  match initState D n with
  | none => none
  | some st => bbLoop D n time_limit clock fuel 0 st

/-- `best_cost` of a run, conflating a crash with an absent incumbent only
when the claim at hand has already established the run returned. -/
def bestCostOf (o : Option SearchState) : Option ℚ :=
  o.bind (fun st => st.res.best_cost)

/-- `best_tour` of a run. -/
def bestTourOf (o : Option SearchState) : Option (List ℕ) :=
  o.bind (fun st => st.res.best_tour)

/-- `nodes_expanded` of a run (zero if the run raised). -/
def nodesExpandedOf (o : Option SearchState) : ℕ :=
  (o.map (fun st => st.res.nodes_expanded)).getD 0

/-- All insertions of `x` into a list; helper for `perms`. -/
def insertEverywhere (x : ℕ) : List ℕ → List (List ℕ)
  | [] => [[x]]
  | y :: ys => (x :: y :: ys) :: (insertEverywhere x ys).map (fun l => y :: l)

/-- All permutations of a list (reference implementation for brute force,
structurally recursive so that witnesses can evaluate it). -/
def perms : List ℕ → List (List ℕ)
  | [] => [[]]
  | x :: xs => (perms xs).flatMap (insertEverywhere x)

/-- Brute-force optimal closed-tour cost from city 0: minimum of
`pathCost` over all tours `0 :: p ++ [0]`, `p` a permutation of `1..n-1`. -/
def bruteOpt (D : ℕ → ℕ → ℚ) (n : ℕ) : Option ℚ :=
  listMin ((perms ((List.range n).drop 1)).map
    (fun p => pathCost D ((0 :: p) ++ [0])))

/-- The true minimal total cost of completing the partial path `path` into
a closed tour at `start`, visiting exactly the `unvisited` cities. -/
def minCompletion (D : ℕ → ℕ → ℚ) (path unvisited : List ℕ) (start : ℕ) :
    Option ℚ :=
  listMin ((perms unvisited).map (fun p => pathCost D ((path ++ p) ++ [start])))

/-- Row-major concrete matrix: out-of-range entries read as 0 (never
reached by the solver on well-formed inputs of the right size). -/
def matOf (rows : List (List ℚ)) : ℕ → ℕ → ℚ :=
  fun i j => ((rows.getD i []).getD j 0)

/-- The 2-city matrix of the specification scenarios. -/
def M2 : ℕ → ℕ → ℚ := matOf [[0, 10], [10, 0]]

/-- The 3-city matrix of the specification scenarios. -/
def M3 : ℕ → ℕ → ℚ := matOf [[0, 10, 15], [10, 0, 20], [15, 20, 0]]

/-- Symmetric 3-city matrix on which the lower bound overestimates a
completion (distances 0-1: 1, 0-2: 2, 1-2: 5). -/
def MA : ℕ → ℕ → ℚ := matOf [[0, 1, 2], [1, 0, 5], [2, 5, 0]]

/-- Symmetric 3-city matrix on which extending a path decreases the bound
(distances 0-1: 10, 0-2: 20, 1-2: 2). -/
def MB : ℕ → ℕ → ℚ := matOf [[0, 10, 20], [10, 0, 2], [20, 2, 0]]

/-- Symmetric 4-city matrix on which full search returns a non-optimal
cost (24 instead of 22). -/
def MS : ℕ → ℕ → ℚ :=
  matOf [[0, 1, 2, 7], [1, 0, 9, 12], [2, 9, 0, 7], [7, 12, 7, 0]]

/-- Invariant of every node the solver ever places on the heap: the path
starts at city 0, path and unvisited together are a permutation of all
cities, and the stored cost is the path's edge-cost sum. -/
def NodeInv (D : ℕ → ℕ → ℚ) (n : ℕ) (nd : Node) : Prop :=
  nd.path.head? = some 0 ∧
  List.Perm (nd.path ++ nd.unvisited) (List.range n) ∧
  nd.cost = pathCost D nd.path

/-- Coherence of the incumbent: an absent tour forces the infinite cost
sentinel, and a present tour is a complete path from city 0 closed by its
first city, with `best_cost` its exact edge-cost sum. -/
def IncumbentInv (D : ℕ → ℕ → ℚ) (n : ℕ) (r : BBResult) : Prop :=
  (r.best_tour = none → r.best_cost = none) ∧
  (∀ t, r.best_tour = some t →
    ∃ p, t = p ++ [0] ∧ p.head? = some 0 ∧ List.Perm p (List.range n) ∧
      r.best_cost = some (pathCost D t))

/-- The solver's loop invariant: every heap node satisfies `NodeInv` and
the incumbent is coherent. -/
def StateInv (D : ℕ → ℕ → ℚ) (n : ℕ) (st : SearchState) : Prop :=
  (∀ nd ∈ st.heap, NodeInv D n nd) ∧ IncumbentInv D n st.res

lemma insertAsc_perm (x : ℚ) (l : List ℚ) :
    List.Perm (insertAsc x l) (x :: l) := by
  induction l with
  | nil => simp [insertAsc]
  | cons y ys ih =>
    by_cases h : x ≤ y
    · simp [insertAsc, h]
    · simp only [insertAsc, if_neg h]
      exact (ih.cons y).trans (List.Perm.swap x y ys)

lemma sortAsc_perm (l : List ℚ) : List.Perm (sortAsc l) l := by
  induction l with
  | nil => simp [sortAsc]
  | cons x xs ih => exact (insertAsc_perm x (sortAsc xs)).trans (ih.cons x)

lemma mem_of_mem_sortAsc {x : ℚ} {l : List ℚ} (h : x ∈ sortAsc l) : x ∈ l :=
  (sortAsc_perm l).mem_iff.mp h

lemma sortAsc_length (l : List ℚ) : (sortAsc l).length = l.length :=
  (sortAsc_perm l).length_eq

lemma pathCost_concat (D : ℕ → ℕ → ℚ) :
    ∀ (p : List ℕ) (l v : ℕ), p.getLast? = some l →
      pathCost D (p ++ [v]) = pathCost D p + D l v
  | [], _, _, h => by simp at h
  | [a], l, v, h => by
    simp only [List.getLast?_singleton, Option.some.injEq] at h
    subst h
    simp [pathCost]
  | a :: b :: t, l, v, h => by
    rw [List.getLast?_cons_cons] at h
    have ih := pathCost_concat D (b :: t) l v h
    simp only [List.cons_append, List.append_eq, pathCost] at ih ⊢
    rw [ih]
    ring

lemma foldl_min_nonneg {x : ℚ} {l : List ℚ} (hx : 0 ≤ x)
    (hl : ∀ y ∈ l, 0 ≤ y) : 0 ≤ l.foldl min x := by
  induction l generalizing x with
  | nil => simpa using hx
  | cons y ys ih =>
    simp only [List.foldl_cons]
    exact ih (le_min hx (hl y (List.mem_cons_self y _))) (fun z hz => hl z (List.mem_cons_of_mem y hz))

lemma getD_nonneg (l : List ℚ) (j : ℕ) (hl : ∀ x ∈ l, 0 ≤ x) : 0 ≤ l.getD j 0 := by
  induction l generalizing j with
  | nil => simp
  | cons y ys ih =>
    cases j with
    | zero => simpa using hl y (List.mem_cons_self y _)
    | succ j => simpa using ih j (fun z hz => hl z (List.mem_cons_of_mem y hz))

lemma rowOf_nonneg (rows : List (List ℚ)) (i : ℕ)
    (h : ∀ r ∈ rows, ∀ x ∈ r, 0 ≤ x) : ∀ x ∈ rows.getD i [], 0 ≤ x := by
  induction rows generalizing i with
  | nil => simp
  | cons r rs ih =>
    cases i with
    | zero => simpa using h r (List.mem_cons_self r _)
    | succ i => simpa using ih i (fun s hs => h s (List.mem_cons_of_mem r hs))

lemma matOf_nonneg (rows : List (List ℚ))
    (h : ∀ r ∈ rows, ∀ x ∈ r, 0 ≤ x) : ∀ i j, 0 ≤ matOf rows i j := by
  intro i j
  exact getD_nonneg _ j (rowOf_nonneg rows i h)

lemma listLtB_irrefl : ∀ l : List ℕ, listLtB l l = false
  | [] => rfl
  | _ :: as => by simp [listLtB, listLtB_irrefl as]

lemma listLtB_trans : ∀ {a b c : List ℕ}, listLtB a b = true →
    listLtB b c = true → listLtB a c = true
  | [], [], _, h1, _ => by simp [listLtB] at h1
  | [], _ :: _, [], _, h2 => by simp [listLtB] at h2
  | [], _ :: _, _ :: _, _, _ => rfl
  | _ :: _, [], _, h1, _ => by simp [listLtB] at h1
  | _ :: _, _ :: _, [], _, h2 => by simp [listLtB] at h2
  | a :: as, b :: bs, c :: cs, h1, h2 => by
    simp only [listLtB] at h1 h2 ⊢
    rcases Nat.lt_trichotomy a b with hab | hab | hab
    · rcases Nat.lt_trichotomy b c with hbc | hbc | hbc
      · simp [Nat.lt_trans hab hbc]
      · subst hbc; simp [hab]
      · simp [hbc, Nat.lt_asymm hbc] at h2
    · subst hab
      rcases Nat.lt_trichotomy a c with hac | hac | hac
      · simp [hac]
      · subst hac
        simp [Nat.lt_irrefl] at h1 h2 ⊢
        exact listLtB_trans h1 h2
      · simp [hac, Nat.lt_asymm hac] at h2
    · simp [hab, Nat.lt_asymm hab] at h1

lemma listLtB_conn : ∀ {a b : List ℕ}, listLtB a b = false →
    listLtB b a = false → a = b
  | [], [], _, _ => rfl
  | [], _ :: _, h1, _ => by simp [listLtB] at h1
  | _ :: _, [], _, h2 => by simp [listLtB] at h2
  | a :: as, b :: bs, h1, h2 => by
    simp only [listLtB] at h1 h2
    rcases Nat.lt_trichotomy a b with hab | hab | hab
    · simp [hab] at h1
    · subst hab
      simp only [Nat.lt_irrefl, if_false] at h1 h2
      rw [listLtB_conn h1 h2]
    · simp [hab] at h2

lemma qltB_irrefl (x : ℚ) : qltB x x = false := by simp [qltB]

lemma qltB_trans {x y z : ℚ} (h1 : qltB x y = true) (h2 : qltB y z = true) :
    qltB x z = true := by
  simp only [qltB, decide_eq_true_eq] at h1 h2 ⊢
  exact h1.trans h2

lemma qltB_conn {x y : ℚ} (h1 : qltB x y = false) (h2 : qltB y x = false) :
    x = y := by
  simp only [qltB, decide_eq_false_iff_not, not_lt] at h1 h2
  exact le_antisymm h2 h1

lemma cmpThen_of_lt {α : Type} {lt : α → α → Bool} {x y : α} {k : Bool}
    (h : lt x y = true) : cmpThen lt x y k = true := by
  simp [cmpThen, h]

lemma cmpThen_true_elim {α : Type} {lt : α → α → Bool} {x y : α} {k : Bool}
    (h : cmpThen lt x y k = true) :
    lt x y = true ∨ (lt x y = false ∧ lt y x = false ∧ k = true) := by
  by_cases h1 : lt x y = true
  · exact Or.inl h1
  · rw [Bool.not_eq_true] at h1
    unfold cmpThen at h
    rw [h1] at h
    by_cases h2 : lt y x = true
    · rw [h2] at h; simp at h
    · rw [Bool.not_eq_true] at h2
      rw [h2] at h
      simp only [Bool.false_eq_true, if_false] at h
      exact Or.inr ⟨h1, h2, h⟩

lemma cmpThen_false_elim {α : Type} {lt : α → α → Bool} {x y : α} {k : Bool}
    (h : cmpThen lt x y k = false) :
    lt x y = false ∧ (lt y x = true ∨ k = false) := by
  by_cases h1 : lt x y = true
  · simp [cmpThen, h1] at h
  · rw [Bool.not_eq_true] at h1
    refine ⟨h1, ?_⟩
    by_cases h2 : lt y x = true
    · exact Or.inl h2
    · rw [Bool.not_eq_true] at h2
      unfold cmpThen at h
      rw [h1, h2] at h
      simp only [Bool.false_eq_true, if_false] at h
      exact Or.inr h

lemma cmpThen_self {α : Type} {lt : α → α → Bool} {x : α} {k : Bool}
    (h : lt x x = false) : cmpThen lt x x k = k := by
  simp [cmpThen, h]

lemma cmpThen_imp {α : Type} {lt : α → α → Bool} {x y : α} {k k' : Bool}
    (h : cmpThen lt x y k = true) (hk : k = true → k' = true) :
    cmpThen lt x y k' = true := by
  rcases cmpThen_true_elim h with h1 | ⟨h1, h2, h3⟩
  · exact cmpThen_of_lt h1
  · simp [cmpThen, h1, h2, hk h3]

lemma cmpThen_trans_layer {α : Type} {lt : α → α → Bool}
    (htr : ∀ u v w : α, lt u v = true → lt v w = true → lt u w = true)
    (hconn : ∀ u v : α, lt u v = false → lt v u = false → u = v)
    {x y z : α} {k1 k2 k3 : Bool}
    (h1 : cmpThen lt x y k1 = true) (h2 : cmpThen lt y z k2 = true)
    (hk : k1 = true → k2 = true → k3 = true) :
    cmpThen lt x z k3 = true := by
  rcases cmpThen_true_elim h1 with hxy | ⟨hxy, hyx, hk1⟩
  · rcases cmpThen_true_elim h2 with hyz | ⟨hyz, hzy, hk2⟩
    · exact cmpThen_of_lt (htr x y z hxy hyz)
    · have hyz2 : y = z := hconn y z hyz hzy
      subst hyz2
      exact cmpThen_of_lt hxy
  · have hxy2 : x = y := hconn x y hxy hyx
    subst hxy2
    rcases cmpThen_true_elim h2 with hyz | ⟨hyz, hzy, hk2⟩
    · exact cmpThen_of_lt hyz
    · have hxz : x = z := hconn x z hyz hzy
      subst hxz
      rw [cmpThen_self hyz]
      exact hk hk1 hk2

lemma cmpThen_conn_layer {α : Type} {lt : α → α → Bool}
    (hconn : ∀ u v : α, lt u v = false → lt v u = false → u = v)
    {x y : α} {k1 k2 : Bool}
    (h1 : cmpThen lt x y k1 = false) (h2 : cmpThen lt y x k2 = false) :
    x = y ∧ k1 = false ∧ k2 = false := by
  obtain ⟨hxy, hrest1⟩ := cmpThen_false_elim h1
  obtain ⟨hyx, hrest2⟩ := cmpThen_false_elim h2
  have hxy2 : x = y := hconn x y hxy hyx
  subst hxy2
  refine ⟨rfl, ?_, ?_⟩
  · rcases hrest1 with h | h
    · rw [h] at hyx; simp at hyx
    · exact h
  · rcases hrest2 with h | h
    · rw [h] at hxy; simp at hxy
    · exact h

lemma nodeLtB_irrefl (a : Node) : nodeLtB a a = false := by
  unfold nodeLtB
  rw [cmpThen_self (qltB_irrefl _), cmpThen_self (qltB_irrefl _),
    cmpThen_self (listLtB_irrefl _)]
  exact listLtB_irrefl _

lemma qltB_trans3 : ∀ u v w : ℚ, qltB u v = true → qltB v w = true →
    qltB u w = true :=
  fun _ _ _ h1 h2 => qltB_trans h1 h2

lemma qltB_conn2 : ∀ u v : ℚ, qltB u v = false → qltB v u = false → u = v :=
  fun _ _ h1 h2 => qltB_conn h1 h2

lemma listLtB_trans3 : ∀ u v w : List ℕ, listLtB u v = true →
    listLtB v w = true → listLtB u w = true :=
  fun _ _ _ h1 h2 => listLtB_trans h1 h2

lemma listLtB_conn2 : ∀ u v : List ℕ, listLtB u v = false →
    listLtB v u = false → u = v :=
  fun _ _ h1 h2 => listLtB_conn h1 h2

lemma nodeLtB_trans {a b c : Node} (h1 : nodeLtB a b = true)
    (h2 : nodeLtB b c = true) : nodeLtB a c = true := by
  unfold nodeLtB at h1 h2 ⊢
  refine cmpThen_trans_layer qltB_trans3 qltB_conn2 h1 h2 (fun m1 m2 => ?_)
  refine cmpThen_trans_layer qltB_trans3 qltB_conn2 m1 m2 (fun p1 p2 => ?_)
  refine cmpThen_trans_layer listLtB_trans3 listLtB_conn2 p1 p2 (fun u1 u2 => ?_)
  exact listLtB_trans u1 u2

lemma nodeLtB_conn {a b : Node} (h1 : nodeLtB a b = false)
    (h2 : nodeLtB b a = false) : a = b := by
  unfold nodeLtB at h1 h2
  obtain ⟨hb, h1, h2⟩ := cmpThen_conn_layer qltB_conn2 h1 h2
  obtain ⟨hc, h1, h2⟩ := cmpThen_conn_layer qltB_conn2 h1 h2
  obtain ⟨hp, h1, h2⟩ := cmpThen_conn_layer listLtB_conn2 h1 h2
  have hu : a.unvisited = b.unvisited := listLtB_conn h1 h2
  cases a; cases b
  simp_all

lemma key3LtB_imp_nodeLtB {a b : Node} (h : key3LtB a b = true) :
    nodeLtB a b = true := by
  unfold key3LtB at h
  unfold nodeLtB
  refine cmpThen_imp h (fun h1 => ?_)
  refine cmpThen_imp h1 (fun h2 => ?_)
  exact cmpThen_of_lt h2

lemma findMin_mem : ∀ (xs : List Node) (m : Node), findMin m xs ∈ m :: xs
  | [], m => List.mem_cons_self m []
  | x :: xs, m => by
    unfold findMin
    by_cases h : nodeLtB x m = true
    · rw [if_pos h]
      rcases List.mem_cons.mp (findMin_mem xs x) with h1 | h1
      · rw [h1]; exact List.mem_cons_of_mem m (List.mem_cons_self x xs)
      · exact List.mem_cons_of_mem m (List.mem_cons_of_mem x h1)
    · rw [Bool.not_eq_true] at h
      rw [if_neg (by rw [h]; simp)]
      rcases List.mem_cons.mp (findMin_mem xs m) with h1 | h1
      · rw [h1]; exact List.mem_cons_self m _
      · exact List.mem_cons_of_mem m (List.mem_cons_of_mem x h1)

lemma findMin_not_lt : ∀ (xs : List Node) (m : Node), ∀ y ∈ m :: xs,
    nodeLtB y (findMin m xs) = false
  | [], m, y, hy => by
    rcases List.mem_cons.mp hy with rfl | h1
    · exact nodeLtB_irrefl y
    · simp at h1
  | x :: xs, m, y, hy => by
    unfold findMin
    by_cases h : nodeLtB x m = true
    · rw [if_pos h]
      rcases List.mem_cons.mp hy with rfl | hy2
      · by_contra hc
        rw [Bool.not_eq_false] at hc
        have hxr := findMin_not_lt xs x x (List.mem_cons_self x xs)
        rw [nodeLtB_trans h hc] at hxr
        simp at hxr
      · rcases List.mem_cons.mp hy2 with rfl | hy3
        · exact findMin_not_lt xs y y (List.mem_cons_self y xs)
        · exact findMin_not_lt xs x y (List.mem_cons_of_mem x hy3)
    · rw [Bool.not_eq_true] at h
      rw [if_neg (by rw [h]; simp)]
      rcases List.mem_cons.mp hy with rfl | hy2
      · exact findMin_not_lt xs y y (List.mem_cons_self y xs)
      · rcases List.mem_cons.mp hy2 with rfl | hy3
        · by_contra hc
          rw [Bool.not_eq_false] at hc
          have hmr := findMin_not_lt xs m m (List.mem_cons_self m xs)
          by_cases hmx : nodeLtB m y = true
          · rw [nodeLtB_trans hmx hc] at hmr
            simp at hmr
          · rw [Bool.not_eq_true] at hmx
            have hym : y = m := nodeLtB_conn h hmx
            rw [hym] at hc
            rw [hc] at hmr
            simp at hmr
        · exact findMin_not_lt xs m y (List.mem_cons_of_mem m hy3)

lemma popMin_spec {heap : List Node} {nd : Node} {rest : List Node}
    (h : popMin heap = some (nd, rest)) :
    nd ∈ heap ∧ (∀ x ∈ heap, nodeLtB x nd = false) ∧ rest = heap.erase nd := by
  cases heap with
  | nil => simp [popMin] at h
  | cons x xs =>
    simp only [popMin, Option.some.injEq, Prod.mk.injEq] at h
    obtain ⟨h1, h2⟩ := h
    subst h1
    exact ⟨findMin_mem xs x, fun y hy => findMin_not_lt xs x y hy, h2.symm⟩

lemma popMin_nil_iff {heap : List Node} : popMin heap = none ↔ heap = [] := by
  cases heap with
  | nil => simp [popMin]
  | cons x xs => simp [popMin]

lemma head_append_single {path : List ℕ} {a v : ℕ}
    (h : path.head? = some a) : (path ++ [v]).head? = some a := by
  cases path with
  | nil => simp at h
  | cons x xs => simpa using h

lemma children_inv (D : ℕ → ℕ → ℚ) (n : ℕ) (path : List ℕ) (cost : ℚ)
    (last : ℕ) (best : Option ℚ) :
    ∀ (after before : List ℕ) (cs : List Node),
      children D n path cost last best before after = some cs →
      path.head? = some 0 → path.getLast? = some last →
      cost = pathCost D path →
      List.Perm (path ++ (before ++ after)) (List.range n) →
      ∀ c ∈ cs, NodeInv D n c
  | [], _, cs, hc, _, _, _, _ => by
    simp only [children, Option.some.injEq] at hc
    subst hc
    intro c hcmem
    simp at hcmem
  | v :: after, before, cs, hc, hhead, hlast, hcost, hperm => by
    simp only [children] at hc
    cases hlb : lower_bound_two_min_edges D n (path ++ [v]) (cost + D last v)
        (before ++ after) 0 with
    | none => rw [hlb] at hc; simp at hc
    | some nb =>
      rw [hlb] at hc
      dsimp only at hc
      cases hrec : children D n path cost last best (before ++ [v]) after with
      | none => rw [hrec] at hc; simp at hc
      | some rest =>
        rw [hrec] at hc
        dsimp only at hc
        have hperm2 : List.Perm (path ++ ((before ++ [v]) ++ after))
            (List.range n) := by
          have he : (before ++ [v]) ++ after = before ++ (v :: after) := by
            simp
          rw [he]
          exact hperm
        have hrest := children_inv D n path cost last best after (before ++ [v])
          rest hrec hhead hlast hcost hperm2
        have hnew : NodeInv D n ⟨nb, cost + D last v, path ++ [v], before ++ after⟩ := by
          refine ⟨head_append_single hhead, ?_, ?_⟩
          · show List.Perm ((path ++ [v]) ++ (before ++ after)) (List.range n)
            have h1 : (path ++ [v]) ++ (before ++ after)
                = path ++ (v :: (before ++ after)) := by simp
            rw [h1]
            have hmid : List.Perm (v :: (before ++ after)) (before ++ v :: after) :=
              (List.perm_middle).symm
            exact (List.Perm.append_left path hmid).trans hperm
          · show cost + D last v = pathCost D (path ++ [v])
            rw [pathCost_concat D path last v hlast, hcost]
        by_cases hlt : ltOpt nb best = true
        · rw [if_pos hlt] at hc
          simp only [Option.some.injEq] at hc
          subst hc
          intro c hcmem
          rcases List.mem_cons.mp hcmem with rfl | hmem
          · exact hnew
          · exact hrest c hmem
        · rw [Bool.not_eq_true] at hlt
          rw [if_neg (by rw [hlt]; simp)] at hc
          simp only [Option.some.injEq] at hc
          subst hc
          exact hrest

lemma initState_inv {D : ℕ → ℕ → ℚ} {n : ℕ} {st : SearchState} (hn : 1 ≤ n)
    (h : initState D n = some st) : StateInv D n st := by
  unfold initState at h
  cases hlb : lower_bound_two_min_edges D n [0] 0 ((List.range n).drop 1) 0 with
  | none => rw [hlb] at h; simp at h
  | some b =>
    rw [hlb] at h
    simp only [Option.some.injEq] at h
    subst h
    have hrange : List.range n = 0 :: (List.range n).drop 1 := by
      cases n with
      | zero => simp at hn
      | succ m => rw [List.range_succ_eq_map]; simp
    refine ⟨?_, ?_, ?_⟩
    · intro nd hnd
      simp only [List.mem_singleton] at hnd
      subst hnd
      refine ⟨rfl, ?_, rfl⟩
      show List.Perm ([0] ++ (List.range n).drop 1) (List.range n)
      rw [List.singleton_append, ← hrange]
    · intro _
      rfl
    · intro t ht
      simp at ht

lemma bbStep_inv {D : ℕ → ℕ → ℚ} {n : ℕ} {st st1 : SearchState}
    (hst : StateInv D n st) (h : bbStep D n st = some st1) :
    StateInv D n st1 := by
  unfold bbStep at h
  cases hpop : popMin st.heap with
  | none =>
    rw [hpop] at h
    dsimp only at h
    obtain rfl : st = st1 := Option.some.inj h
    exact hst
  | some pr =>
    obtain ⟨nd, rest⟩ := pr
    rw [hpop] at h
    dsimp only at h
    obtain ⟨hheap, hinc⟩ := hst
    obtain ⟨hmem, _, hrest_eq⟩ := popMin_spec hpop
    have hnd : NodeInv D n nd := hheap nd hmem
    have hrest : ∀ x ∈ rest, NodeInv D n x := by
      intro x hx
      rw [hrest_eq] at hx
      exact hheap x (List.mem_of_mem_erase hx)
    obtain ⟨hh, hp, hcost⟩ := hnd
    have hpath_ne : nd.path ≠ [] := by
      intro he
      rw [he] at hh
      simp at hh
    have hinc1 : IncumbentInv D n
        { st.res with
          nodes_expanded := st.res.nodes_expanded + 1,
          max_depth := max st.res.max_depth nd.path.length } := by
      obtain ⟨hi1, hi2⟩ := hinc
      exact ⟨hi1, hi2⟩
    by_cases hge : geOpt nd.bound st.res.best_cost = true
    · rw [if_pos hge] at h
      obtain rfl := Option.some.inj h
      exact ⟨hrest, hinc1⟩
    · rw [Bool.not_eq_true] at hge
      rw [if_neg (by rw [hge]; simp)] at h
      cases hu : nd.unvisited with
      | nil =>
        rw [hu] at h
        cases hgl : nd.path.getLast? with
        | none =>
          exact absurd (List.getLast?_eq_none_iff.mp hgl) hpath_ne
        | some last =>
          rw [hgl, hh] at h
          dsimp only at h
          by_cases hlt2 : ltOpt (nd.cost + D last 0) st.res.best_cost = true
          · rw [if_pos hlt2] at h
            obtain rfl := Option.some.inj h
            refine ⟨hrest, ?_, ?_⟩
            · intro hcon
              simp at hcon
            · intro t ht
              simp only [Option.some.injEq] at ht
              subst ht
              refine ⟨nd.path, rfl, hh, ?_, ?_⟩
              · have hp2 := hp
                rw [hu, List.append_nil] at hp2
                exact hp2
              · show some (nd.cost + D last 0) = some (pathCost D (nd.path ++ [0]))
                rw [pathCost_concat D nd.path last 0 hgl, hcost]
          · rw [Bool.not_eq_true] at hlt2
            rw [if_neg (by rw [hlt2]; simp)] at h
            obtain rfl := Option.some.inj h
            exact ⟨hrest, hinc1⟩
      | cons u us =>
        rw [hu] at h
        cases hgl : nd.path.getLast? with
        | none =>
          exact absurd (List.getLast?_eq_none_iff.mp hgl) hpath_ne
        | some last =>
          rw [hgl] at h
          dsimp only at h
          cases hch : children D n nd.path nd.cost last
              st.res.best_cost [] (u :: us) with
          | none => rw [hch] at h; simp at h
          | some cs =>
            rw [hch] at h
            dsimp only at h
            obtain rfl := Option.some.inj h
            refine ⟨?_, hinc1⟩
            intro x hx
            rcases List.mem_append.mp hx with hx1 | hx1
            · exact hrest x hx1
            · have hperm0 : List.Perm (nd.path ++ ([] ++ (u :: us)))
                  (List.range n) := by
                rw [List.nil_append, ← hu]
                exact hp
              exact children_inv D n nd.path nd.cost last st.res.best_cost
                (u :: us) [] cs hch hh hgl hcost hperm0 x hx1

lemma bbLoop_inv {D : ℕ → ℕ → ℚ} {n : ℕ} {tl : ℚ} {clock : ℕ → ℚ} :
    ∀ (fuel k : ℕ) {st st2 : SearchState}, StateInv D n st →
      bbLoop D n tl clock fuel k st = some st2 → StateInv D n st2
  | 0, k, st, st2, hst, h => by
    simp only [bbLoop] at h
    by_cases he : st.heap.isEmpty = true
    · rw [if_pos he] at h
      obtain rfl := Option.some.inj h
      exact hst
    · rw [Bool.not_eq_true] at he
      rw [if_neg (by rw [he]; simp)] at h
      simp at h
  | fuel + 1, k, st, st2, hst, h => by
    simp only [bbLoop] at h
    by_cases he : st.heap.isEmpty = true
    · rw [if_pos he] at h
      obtain rfl := Option.some.inj h
      exact hst
    · rw [Bool.not_eq_true] at he
      rw [if_neg (by rw [he]; simp)] at h
      by_cases ht : tl < clock k
      · rw [if_pos ht] at h
        obtain rfl := Option.some.inj h
        exact hst
      · rw [if_neg ht] at h
        cases hstep : bbStep D n st with
        | none => rw [hstep] at h; simp at h
        | some st1 =>
          rw [hstep] at h
          dsimp only at h
          exact bbLoop_inv fuel (k + 1) (bbStep_inv hst hstep) h

lemma bbStep_expanded {D : ℕ → ℕ → ℚ} {n : ℕ} {st st1 : SearchState}
    (h : bbStep D n st = some st1) :
    st.res.nodes_expanded ≤ st1.res.nodes_expanded := by
  unfold bbStep at h
  cases hpop : popMin st.heap with
  | none =>
    rw [hpop] at h
    dsimp only at h
    obtain rfl := Option.some.inj h
    exact le_rfl
  | some pr =>
    obtain ⟨nd, rest⟩ := pr
    rw [hpop] at h
    dsimp only at h
    split at h <;>
      first
        | (obtain rfl := Option.some.inj h; simp)
        | (split at h <;>
            first
              | (obtain rfl := Option.some.inj h; simp)
              | simp at h
              | (split at h <;>
                  first
                    | (obtain rfl := Option.some.inj h; simp)
                    | simp at h
                    | (split at h <;>
                        first
                          | (obtain rfl := Option.some.inj h; simp)
                          | simp at h)))

lemma bbStep_expanded_pos {D : ℕ → ℕ → ℚ} {n : ℕ} {st st1 : SearchState}
    (hne : st.heap ≠ []) (h : bbStep D n st = some st1) :
    st.res.nodes_expanded + 1 ≤ st1.res.nodes_expanded := by
  unfold bbStep at h
  cases hpop : popMin st.heap with
  | none => exact absurd (popMin_nil_iff.mp hpop) hne
  | some pr =>
    obtain ⟨nd, rest⟩ := pr
    rw [hpop] at h
    dsimp only at h
    split at h <;>
      first
        | (obtain rfl := Option.some.inj h; simp)
        | (split at h <;>
            first
              | (obtain rfl := Option.some.inj h; simp)
              | simp at h
              | (split at h <;>
                  first
                    | (obtain rfl := Option.some.inj h; simp)
                    | simp at h
                    | (split at h <;>
                        first
                          | (obtain rfl := Option.some.inj h; simp)
                          | simp at h)))

lemma bbLoop_expanded {D : ℕ → ℕ → ℚ} {n : ℕ} {tl : ℚ} {clock : ℕ → ℚ} :
    ∀ (fuel k : ℕ) {st st2 : SearchState},
      bbLoop D n tl clock fuel k st = some st2 →
      st.res.nodes_expanded ≤ st2.res.nodes_expanded
  | 0, k, st, st2, h => by
    simp only [bbLoop] at h
    by_cases he : st.heap.isEmpty = true
    · rw [if_pos he] at h
      obtain rfl := Option.some.inj h
      exact le_rfl
    · rw [Bool.not_eq_true] at he
      rw [if_neg (by rw [he]; simp)] at h
      simp at h
  | fuel + 1, k, st, st2, h => by
    simp only [bbLoop] at h
    by_cases he : st.heap.isEmpty = true
    · rw [if_pos he] at h
      obtain rfl := Option.some.inj h
      exact le_rfl
    · rw [Bool.not_eq_true] at he
      rw [if_neg (by rw [he]; simp)] at h
      by_cases ht : tl < clock k
      · rw [if_pos ht] at h
        obtain rfl := Option.some.inj h
        exact le_rfl
      · rw [if_neg ht] at h
        cases hstep : bbStep D n st with
        | none => rw [hstep] at h; simp at h
        | some stm =>
          rw [hstep] at h
          dsimp only at h
          exact le_trans (bbStep_expanded hstep) (bbLoop_expanded fuel (k + 1) h)

lemma twoSmallest_nonneg {D : ℕ → ℕ → ℚ} {n i : ℕ} {a : ℚ}
    (hD : ∀ i j, 0 ≤ D i j) (h : twoSmallest D n i = some a) : 0 ≤ a := by
  unfold twoSmallest at h
  cases hs : sortAsc ((((List.range n).filter (fun j => j ≠ i)).map
      (fun j => D i j))) with
  | nil => rw [hs] at h; simp at h
  | cons m0 tail =>
    cases tail with
    | nil => rw [hs] at h; simp at h
    | cons m1 rest =>
      rw [hs] at h
      simp only [Option.some.injEq] at h
      subst h
      have hm0 : m0 ∈ sortAsc ((((List.range n).filter (fun j => j ≠ i)).map
          (fun j => D i j))) := by rw [hs]; exact List.mem_cons_self m0 _
      have hm1 : m1 ∈ sortAsc ((((List.range n).filter (fun j => j ≠ i)).map
          (fun j => D i j))) := by
        rw [hs]
        exact List.mem_cons_of_mem m0 (List.mem_cons_self m1 rest)
      obtain ⟨j0, _, hj0⟩ := List.mem_map.mp (mem_of_mem_sortAsc hm0)
      obtain ⟨j1, _, hj1⟩ := List.mem_map.mp (mem_of_mem_sortAsc hm1)
      rw [← hj0, ← hj1]
      exact add_nonneg (hD i j0) (hD i j1)

lemma sumTwoMins_nonneg {D : ℕ → ℕ → ℚ} {n : ℕ} (hD : ∀ i j, 0 ≤ D i j) :
    ∀ {l : List ℕ} {s : ℚ}, sumTwoMins D n l = some s → 0 ≤ s
  | [], s, h => by
    simp only [sumTwoMins, Option.some.injEq] at h
    subst h
    exact le_rfl
  | i :: rest, s, h => by
    simp only [sumTwoMins] at h
    cases h2 : twoSmallest D n i with
    | none => rw [h2] at h; simp at h
    | some a =>
      rw [h2] at h
      cases h3 : sumTwoMins D n rest with
      | none => rw [h3] at h; simp at h
      | some s2 =>
        rw [h3] at h
        simp only [Option.some.injEq] at h
        subst h
        exact add_nonneg (twoSmallest_nonneg hD h2) (sumTwoMins_nonneg hD h3)

lemma lower_bound_ge_cost {D : ℕ → ℕ → ℚ} {n : ℕ} {path : List ℕ} {cost : ℚ}
    {unvisited : List ℕ} {start : ℕ} {b : ℚ} (hD : ∀ i j, 0 ≤ D i j)
    (h : lower_bound_two_min_edges D n path cost unvisited start = some b) :
    cost ≤ b := by
  unfold lower_bound_two_min_edges at h
  cases hgl : path.getLast? with
  | none => rw [hgl] at h; simp at h
  | some last =>
    rw [hgl] at h
    dsimp only at h
    cases hs : sumTwoMins D n unvisited with
    | none => rw [hs] at h; simp at h
    | some s =>
      rw [hs] at h
      simp only [Option.some.injEq] at h
      subst h
      have hmfl : 0 ≤ (match unvisited with
          | [] => D last start
          | u :: us => (us.map (fun j => D last j)).foldl min (D last u)) := by
        cases unvisited with
        | nil => exact hD last start
        | cons u us =>
          refine foldl_min_nonneg (hD last u) ?_
          intro y hy
          obtain ⟨j, _, hj⟩ := List.mem_map.mp hy
          rw [← hj]
          exact hD last j
      have hs2 : 0 ≤ s / 2 := by
        have := sumTwoMins_nonneg hD hs
        positivity
      linarith

lemma filter_ne_range_length : ∀ {n i : ℕ}, i < n →
    ((List.range n).filter (fun j => j ≠ i)).length = n - 1 := by
  intro n
  induction n with
  | zero => intro i hi; omega
  | succ m ih =>
    intro i hi
    rw [List.range_succ, List.filter_append, List.length_append]
    rcases Nat.lt_or_ge i m with him | him
    · rw [ih him]
      have hmi : (List.filter (fun j => decide (j ≠ i)) [m]).length = 1 := by
        have : (m ≠ i) := by omega
        simp [this]
      rw [hmi]
      omega
    · have hieq : i = m := by omega
      subst hieq
      have hall : List.filter (fun j => decide (j ≠ i)) (List.range i)
          = List.range i := by
        refine List.filter_eq_self.mpr ?_
        intro a ha
        have : a < i := List.mem_range.mp ha
        simp
        omega
      rw [hall]
      simp

lemma twoSmallest_isSome_iff {D : ℕ → ℕ → ℚ} {n i : ℕ} (hi : i < n) :
    (twoSmallest D n i).isSome = true ↔ 3 ≤ n := by
  have hlen : (sortAsc (((List.range n).filter (fun j => j ≠ i)).map
      (fun j => D i j))).length = n - 1 := by
    rw [sortAsc_length, List.length_map, filter_ne_range_length hi]
  unfold twoSmallest
  cases hs : sortAsc (((List.range n).filter (fun j => j ≠ i)).map
      (fun j => D i j)) with
  | nil =>
    rw [hs] at hlen
    simp only [List.length_nil] at hlen
    simp only [Option.isSome_none, Bool.false_eq_true, false_iff]
    omega
  | cons m0 tail =>
    cases tail with
    | nil =>
      rw [hs] at hlen
      simp only [List.length_singleton] at hlen
      simp only [Option.isSome_none, Bool.false_eq_true, false_iff]
      omega
    | cons m1 rest =>
      rw [hs] at hlen
      simp only [List.length_cons] at hlen
      simp only [Option.isSome_some, true_iff]
      omega

lemma sumTwoMins_isSome_iff {D : ℕ → ℕ → ℚ} {n : ℕ} :
    ∀ {l : List ℕ}, (sumTwoMins D n l).isSome = true ↔
      ∀ i ∈ l, (twoSmallest D n i).isSome = true
  | [] => by simp [sumTwoMins]
  | i :: rest => by
    simp only [sumTwoMins]
    cases h2 : twoSmallest D n i with
    | none =>
      simp only [Option.isSome_none, Bool.false_eq_true, false_iff]
      intro hcon
      have := hcon i (List.mem_cons_self i rest)
      rw [h2] at this
      simp at this
    | some a =>
      cases h3 : sumTwoMins D n rest with
      | none =>
        simp only [Option.isSome_none, Bool.false_eq_true, false_iff]
        intro hcon
        have hrest : ∀ i ∈ rest, (twoSmallest D n i).isSome = true :=
          fun j hj => hcon j (List.mem_cons_of_mem i hj)
        have := sumTwoMins_isSome_iff.mpr hrest
        rw [h3] at this
        simp at this
      | some s2 =>
        simp only [Option.isSome_some, true_iff]
        intro j hj
        rcases List.mem_cons.mp hj with rfl | hj2
        · rw [h2]; rfl
        · have hrest := sumTwoMins_isSome_iff.mp (by rw [h3]; rfl)
          exact hrest j hj2

set_option maxRecDepth 100000

lemma initState_shape {D : ℕ → ℕ → ℚ} {n : ℕ} {st : SearchState}
    (h : initState D n = some st) :
    (∃ nd, st.heap = [nd]) ∧ st.res.nodes_expanded = 0 := by
  unfold initState at h
  cases hlb : lower_bound_two_min_edges D n [0] 0 ((List.range n).drop 1) 0 with
  | none => rw [hlb] at h; simp at h
  | some b =>
    rw [hlb] at h
    simp only [Option.some.injEq] at h
    subst h
    exact ⟨⟨_, rfl⟩, rfl⟩

/-- C6: the code crashes on the 2-city scenario. On `[[0,10],[10,0]]` the
very first bound computation sorts the single off-diagonal entry of row 1
and reads `mins[1]`, an out-of-range access (IndexError, modelled as
`none`), so `branch_and_bound_tsp` never returns the claimed
`best_cost = 20`, `best_tour = [0,1,0]`. -/
theorem two_city_run_crashes :
    branch_and_bound_tsp M2 2 1000 (fun _ => 0) 100 = none ∧
    lower_bound_two_min_edges M2 2 [0] 0 [1] 0 = none := by
  constructor
  · norm_num [branch_and_bound_tsp, initState, lower_bound_two_min_edges,
      sumTwoMins, twoSmallest, sortAsc, insertAsc, M2, matOf,
      List.range, List.range.loop]
  · norm_num [lower_bound_two_min_edges, sumTwoMins, twoSmallest, sortAsc,
      insertAsc, M2, matOf, List.range, List.range.loop]

/-- C1 counterexample: on the symmetric valid matrix `MA` the solver
generates the node `(path [0,1], cost 1, unvisited [2])` (it is in the
ghost trace of pushed nodes), its bound is `19/2`, yet the unique
completion of that partial path costs only `8` — the lower bound exceeds
the true minimal completion cost, so it is not admissible at every
generated node. -/
theorem bound_not_admissible_on_MA :
    (branch_and_bound_tsp MA 3 1000 (fun _ => 0) 100).elim False
      (fun st => (⟨19/2, 1, [0, 1], [2]⟩ : Node) ∈ st.generated) ∧
    lower_bound_two_min_edges MA 3 [0, 1] 1 [2] 0 = some (19/2) ∧
    minCompletion MA [0, 1] [2] 0 = some 8 ∧ ¬ ((19 : ℚ)/2 ≤ 8) := by
  refine ⟨?_, ?_, ?_, by norm_num⟩
  · norm_num [branch_and_bound_tsp, initState, bbLoop, bbStep, popMin,
      findMin, nodeLtB, cmpThen, qltB, listLtB, children,
      lower_bound_two_min_edges, sumTwoMins, twoSmallest, sortAsc, insertAsc,
      ltOpt, geOpt, MA, matOf, List.range, List.range.loop]
  · norm_num [lower_bound_two_min_edges, sumTwoMins, twoSmallest, sortAsc,
      insertAsc, MA, matOf, List.range, List.range.loop]
  · norm_num [minCompletion, perms, insertEverywhere, listMin, pathCost,
      MA, matOf]

/-- C2 counterexample: on the symmetric valid 4-city matrix `MS` the
frontier is exhausted (final heap empty, no time break), yet the returned
`best_cost` is 24 while the brute-force optimal closed tour costs 22:
full search is not exact, because the inadmissible bound prunes the
optimal branch. -/
theorem full_search_suboptimal_on_MS :
    bestCostOf (branch_and_bound_tsp MS 4 1000 (fun _ => 0) 100) = some 24 ∧
    (branch_and_bound_tsp MS 4 1000 (fun _ => 0) 100).elim False
      (fun st => st.heap = []) ∧
    bruteOpt MS 4 = some 22 ∧ (24 : ℚ) ≠ 22 := by
  refine ⟨?_, ?_, ?_, by norm_num⟩
  · norm_num [bestCostOf, branch_and_bound_tsp, initState, bbLoop, bbStep,
      popMin, findMin, nodeLtB, cmpThen, qltB, listLtB, children,
      lower_bound_two_min_edges, sumTwoMins, twoSmallest, sortAsc, insertAsc,
      ltOpt, geOpt, MS, matOf, List.range, List.range.loop]
  · norm_num [branch_and_bound_tsp, initState, bbLoop, bbStep,
      popMin, findMin, nodeLtB, cmpThen, qltB, listLtB, children,
      lower_bound_two_min_edges, sumTwoMins, twoSmallest, sortAsc, insertAsc,
      ltOpt, geOpt, MS, matOf, List.range, List.range.loop]
  · norm_num [bruteOpt, perms, insertEverywhere, listMin, pathCost, MS,
      matOf, List.range, List.range.loop]

/-- C2 (amended): exactness at full search fails in general (see the
4-city counterexample), but on the literal 3-city matrix of the
specification the solver does exhaust the frontier and return
`best_cost = 45`, equal to the brute-force optimum, with tour
`[0, 1, 2, 0]`. -/
theorem three_city_run_exact :
    bestCostOf (branch_and_bound_tsp M3 3 1000 (fun _ => 0) 100) = some 45 ∧
    bestTourOf (branch_and_bound_tsp M3 3 1000 (fun _ => 0) 100)
      = some [0, 1, 2, 0] ∧
    (branch_and_bound_tsp M3 3 1000 (fun _ => 0) 100).elim False
      (fun st => st.heap = []) ∧
    bruteOpt M3 3 = some 45 := by
  refine ⟨?_, ?_, ?_, ?_⟩
  · norm_num [bestCostOf, branch_and_bound_tsp, initState, bbLoop, bbStep,
      popMin, findMin, nodeLtB, cmpThen, qltB, listLtB, children,
      lower_bound_two_min_edges, sumTwoMins, twoSmallest, sortAsc, insertAsc,
      ltOpt, geOpt, M3, matOf, List.range, List.range.loop]
  · norm_num [bestTourOf, branch_and_bound_tsp, initState, bbLoop, bbStep,
      popMin, findMin, nodeLtB, cmpThen, qltB, listLtB, children,
      lower_bound_two_min_edges, sumTwoMins, twoSmallest, sortAsc, insertAsc,
      ltOpt, geOpt, M3, matOf, List.range, List.range.loop]
  · norm_num [branch_and_bound_tsp, initState, bbLoop, bbStep,
      popMin, findMin, nodeLtB, cmpThen, qltB, listLtB, children,
      lower_bound_two_min_edges, sumTwoMins, twoSmallest, sortAsc, insertAsc,
      ltOpt, geOpt, M3, matOf, List.range, List.range.loop]
  · norm_num [bruteOpt, perms, insertEverywhere, listMin, pathCost, M3,
      matOf, List.range, List.range.loop]

/-- C3 counterexample: `branch_and_bound_tsp` has no start-city parameter
(its signature is `(dist_matrix, time_limit)`), so a caller requesting
start city 1 on the 3-city matrix still receives a tour that starts and
ends at city 0, not at the requested start. -/
theorem start_city_not_honored :
    (1 : ℕ) < 3 ∧
    bestTourOf (branch_and_bound_tsp M3 3 1000 (fun _ => 0) 100)
      = some [0, 1, 2, 0] ∧
    ¬ (([0, 1, 2, 0] : List ℕ).head? = some 1) := by
  refine ⟨by norm_num, ?_, by norm_num⟩
  norm_num [bestTourOf, branch_and_bound_tsp, initState, bbLoop, bbStep,
    popMin, findMin, nodeLtB, cmpThen, qltB, listLtB, children,
    lower_bound_two_min_edges, sumTwoMins, twoSmallest, sortAsc, insertAsc,
    ltOpt, geOpt, M3, matOf, List.range, List.range.loop]

/-- C7 counterexample: no validation exists in the source. With a negative
time limit (and a perfectly valid matrix) the solver raises nothing — it
returns normally (`isSome`), so no `ValidationError` is surfaced to the
caller. -/
theorem negative_time_limit_not_rejected :
    (branch_and_bound_tsp M3 3 (-1) (fun _ => 0) 100).isSome = true := by
  norm_num [branch_and_bound_tsp, initState, bbLoop, bbStep, popMin,
    findMin, nodeLtB, cmpThen, qltB, listLtB, children,
    lower_bound_two_min_edges, sumTwoMins, twoSmallest, sortAsc, insertAsc,
    ltOpt, geOpt, M3, matOf, List.range, List.range.loop]

/-- C7 (amended): the solver performs no input validation at all; a
negative time limit is simply accepted, the loop breaks at the first time
check, and the caller receives a normal result with `best_cost = +∞`, no
tour and zero expansions instead of any raised error. -/
theorem negative_time_limit_returns_empty :
    (branch_and_bound_tsp M3 3 (-1) (fun _ => 0) 100).map
      (fun st => (st.res.best_cost, st.res.best_tour, st.res.nodes_expanded))
      = some (none, none, 0) := by
  norm_num [branch_and_bound_tsp, initState, bbLoop, bbStep, popMin,
    findMin, nodeLtB, cmpThen, qltB, listLtB, children,
    lower_bound_two_min_edges, sumTwoMins, twoSmallest, sortAsc, insertAsc,
    ltOpt, geOpt, M3, matOf, List.range, List.range.loop]

/-- C8 counterexample: the time limit is checked before the first pop, so
with limit 0 and a first clock reading of 1 second the loop breaks
immediately: no node is popped and `nodes_expanded = 0`, refuting
"at least one node is popped and nodes_expanded ≥ 1". -/
theorem zero_time_limit_can_expand_nothing :
    (branch_and_bound_tsp M3 3 0 (fun _ => 1) 100).map
      (fun st => st.res.nodes_expanded) = some 0 ∧ ¬ (1 ≤ (0 : ℕ)) := by
  refine ⟨?_, by norm_num⟩
  norm_num [branch_and_bound_tsp, initState, bbLoop, bbStep, popMin,
    findMin, nodeLtB, cmpThen, qltB, listLtB, children,
    lower_bound_two_min_edges, sumTwoMins, twoSmallest, sortAsc, insertAsc,
    ltOpt, geOpt, M3, matOf, List.range, List.range.loop]

/-- C1 (amended): admissibility fails at internal nodes (see the
counterexample on `MA`), but at every leaf node — empty unvisited set —
the bound is exact: it equals the cost of the unique completion, the
closing edge back to the start, and hence never overestimates there. -/
theorem bound_exact_at_leaves (D : ℕ → ℕ → ℚ) (n : ℕ) (path : List ℕ)
    (cost : ℚ) (start last : ℕ) (hlast : path.getLast? = some last)
    (hcost : cost = pathCost D path) :
    lower_bound_two_min_edges D n path cost [] start
      = minCompletion D path [] start := by
  unfold lower_bound_two_min_edges
  rw [hlast]
  dsimp only
  unfold minCompletion perms
  simp only [List.map, listMin, List.foldl, sumTwoMins]
  rw [List.append_nil, pathCost_concat D path last start hlast, hcost]
  norm_num

/-- Witness for `bound_exact_at_leaves` at the completed path [0,1,2] of
the 3-city matrix. -/
theorem bound_exact_at_leaves_witness :
    ([0, 1, 2] : List ℕ).getLast? = some 2 ∧
    (30 : ℚ) = pathCost M3 [0, 1, 2] ∧
    lower_bound_two_min_edges M3 3 [0, 1, 2] 30 [] 0
      = minCompletion M3 [0, 1, 2] [] 0 :=
  ⟨by norm_num, by norm_num [pathCost, M3, matOf],
    bound_exact_at_leaves M3 3 [0, 1, 2] 30 0 2 (by norm_num)
      (by norm_num [pathCost, M3, matOf])⟩

/-- C4 counterexample: on the symmetric valid matrix `MB`, the initial
node `(path [0], cost 0, unvisited [1,2])` has bound 27, while its child
obtained by extending with city 1 (cost `0 + MB 0 1`) has bound 23 < 27:
extending a path by one city can strictly decrease the bound. -/
theorem bound_decreases_on_extension_MB :
    lower_bound_two_min_edges MB 3 [0] 0 [1, 2] 0 = some 27 ∧
    lower_bound_two_min_edges MB 3 ([0] ++ [1]) (0 + MB 0 1) [2] 0
      = some 23 ∧
    ¬ ((27 : ℚ) ≤ 23) := by
  refine ⟨?_, ?_, by norm_num⟩
  · norm_num [lower_bound_two_min_edges, sumTwoMins, twoSmallest, sortAsc,
      insertAsc, MB, matOf, List.range, List.range.loop]
  · norm_num [lower_bound_two_min_edges, sumTwoMins, twoSmallest, sortAsc,
      insertAsc, MB, matOf, List.range, List.range.loop]

/-- C4 (amended): the bound is not monotone along an extension, but on a
non-negative matrix the accumulated cost never decreases when a path is
extended, and every computed child bound dominates the child's (hence the
parent's) accumulated cost. -/
theorem extension_cost_monotone_and_bound_ge_cost (D : ℕ → ℕ → ℚ) (n : ℕ)
    (hD : ∀ i j, 0 ≤ D i j) (path : List ℕ) (cost : ℚ)
    (unvisited : List ℕ) (start last v : ℕ) (b : ℚ)
    (h : lower_bound_two_min_edges D n (path ++ [v]) (cost + D last v)
      unvisited start = some b) :
    cost ≤ cost + D last v ∧ cost + D last v ≤ b :=
  ⟨by linarith [hD last v], lower_bound_ge_cost hD h⟩

/-- Witness for `extension_cost_monotone_and_bound_ge_cost` on the 3-city
matrix: the child `[0, 1]` has bound 95/2, above its cost 10. -/
theorem extension_cost_monotone_witness :
    (∀ i j, 0 ≤ M3 i j) ∧
    lower_bound_two_min_edges M3 3 ([0] ++ [1]) (0 + M3 0 1) [2] 0
      = some (95/2) ∧
    ((0 : ℚ) ≤ 0 + M3 0 1 ∧ 0 + M3 0 1 ≤ 95/2) :=
  ⟨matOf_nonneg _ (by
      intro r hr x hx
      fin_cases hr <;> simp_all <;> rcases hx with rfl | rfl | rfl <;> norm_num),
    by norm_num [lower_bound_two_min_edges, sumTwoMins, twoSmallest, sortAsc,
      insertAsc, M3, matOf, List.range, List.range.loop],
    extension_cost_monotone_and_bound_ge_cost M3 3
      (matOf_nonneg _ (by
        intro r hr x hx
        fin_cases hr <;> simp_all <;> rcases hx with rfl | rfl | rfl <;> norm_num))
      [0] 0 [2] 0 0 1 (95/2)
      (by norm_num [lower_bound_two_min_edges, sumTwoMins, twoSmallest,
        sortAsc, insertAsc, M3, matOf, List.range, List.range.loop])⟩

/-- C5: whenever a node is removed from the frontier it belongs to the
frontier and no frontier node is strictly smaller under the composite
order (bound ascending, then accumulated cost ascending, then
lexicographic visited-city sequence). -/
theorem popped_node_minimal (heap : List Node) (nd : Node)
    (rest : List Node) (h : popMin heap = some (nd, rest)) :
    nd ∈ heap ∧ ∀ x ∈ heap, key3LtB x nd = false := by
  obtain ⟨hmem, hmin, _⟩ := popMin_spec h
  refine ⟨hmem, fun x hx => ?_⟩
  by_contra hc
  rw [Bool.not_eq_false] at hc
  have h2 := key3LtB_imp_nodeLtB hc
  rw [hmin x hx] at h2
  simp at h2

/-- Witness for `popped_node_minimal` on a concrete two-node frontier. -/
theorem popped_node_minimal_witness :
    popMin [⟨2, 0, [0, 2], [1]⟩, ⟨1, 0, [0, 1], [2]⟩]
      = some (⟨1, 0, [0, 1], [2]⟩, [⟨2, 0, [0, 2], [1]⟩]) ∧
    ((⟨1, 0, [0, 1], [2]⟩ : Node) ∈
        [(⟨2, 0, [0, 2], [1]⟩ : Node), ⟨1, 0, [0, 1], [2]⟩] ∧
      ∀ x ∈ [(⟨2, 0, [0, 2], [1]⟩ : Node), ⟨1, 0, [0, 1], [2]⟩],
        key3LtB x ⟨1, 0, [0, 1], [2]⟩ = false) :=
  ⟨by norm_num [popMin, findMin, nodeLtB, cmpThen, qltB, listLtB,
      List.erase_cons, Node.mk.injEq],
    popped_node_minimal _ ⟨1, 0, [0, 1], [2]⟩ [⟨2, 0, [0, 2], [1]⟩]
      (by norm_num [popMin, findMin, nodeLtB, cmpThen, qltB, listLtB,
        List.erase_cons, Node.mk.injEq])⟩

/-- C3 (amended): the solver has no start-city parameter and always starts
at city 0; whenever `best_tour` is present it has length n+1, starts and
ends at city 0, and its first n entries visit every city exactly once. -/
theorem best_tour_valid_from_zero (D : ℕ → ℕ → ℚ) (n : ℕ) (time_limit : ℚ)
    (clock : ℕ → ℚ) (fuel : ℕ) (hn : 1 ≤ n) (t : List ℕ)
    (ht : bestTourOf (branch_and_bound_tsp D n time_limit clock fuel)
      = some t) :
    t.length = n + 1 ∧ t.head? = some 0 ∧ t.getLast? = some 0 ∧
    List.Perm t.dropLast (List.range n) := by
  unfold bestTourOf at ht
  obtain ⟨st, hrun, htour⟩ := Option.bind_eq_some.mp ht
  unfold branch_and_bound_tsp at hrun
  cases hinit : initState D n with
  | none => rw [hinit] at hrun; simp at hrun
  | some st0 =>
    rw [hinit] at hrun
    dsimp only at hrun
    have hinv := bbLoop_inv fuel 0 (initState_inv hn hinit) hrun
    obtain ⟨p, hpt, hph, hperm, _⟩ := hinv.2.2 t htour
    subst hpt
    have hplen : p.length = n := by
      rw [hperm.length_eq, List.length_range]
    refine ⟨?_, ?_, ?_, ?_⟩
    · rw [List.length_append, hplen]
      rfl
    · cases p with
      | nil => simp at hph
      | cons a as =>
        simp only [List.head?_cons, Option.some.injEq] at hph
        subst hph
        rfl
    · exact List.getLast?_concat p
    · rw [List.dropLast_concat]
      exact hperm

/-- Witness for `best_tour_valid_from_zero` on the 3-city run. -/
theorem best_tour_valid_from_zero_witness :
    (1 : ℕ) ≤ 3 ∧
    bestTourOf (branch_and_bound_tsp M3 3 1000 (fun _ => 0) 100)
      = some [0, 1, 2, 0] ∧
    (([0, 1, 2, 0] : List ℕ).length = 3 + 1 ∧
      ([0, 1, 2, 0] : List ℕ).head? = some 0 ∧
      ([0, 1, 2, 0] : List ℕ).getLast? = some 0 ∧
      List.Perm ([0, 1, 2, 0] : List ℕ).dropLast (List.range 3)) :=
  ⟨by norm_num,
    by norm_num [bestTourOf, branch_and_bound_tsp, initState, bbLoop, bbStep,
      popMin, findMin, nodeLtB, cmpThen, qltB, listLtB, children,
      lower_bound_two_min_edges, sumTwoMins, twoSmallest, sortAsc, insertAsc,
      ltOpt, geOpt, M3, matOf, List.range, List.range.loop],
    best_tour_valid_from_zero M3 3 1000 (fun _ => 0) 100 (by norm_num)
      [0, 1, 2, 0]
      (by norm_num [bestTourOf, branch_and_bound_tsp, initState, bbLoop,
        bbStep, popMin, findMin, nodeLtB, cmpThen, qltB, listLtB, children,
        lower_bound_two_min_edges, sumTwoMins, twoSmallest, sortAsc,
        insertAsc, ltOpt, geOpt, M3, matOf, List.range, List.range.loop])⟩

/-- C8 (amended): the time limit is checked before each pop, so the
initial node is processed exactly when the first clock reading does not
exceed the limit; in that case any completed run has popped at least one
node, and `nodes_expanded ≥ 1`. -/
theorem first_check_within_limit_expands (D : ℕ → ℕ → ℚ) (n : ℕ)
    (time_limit : ℚ) (clock : ℕ → ℚ) (fuel : ℕ)
    (hclk : ¬ (time_limit < clock 0))
    (hs : (branch_and_bound_tsp D n time_limit clock (fuel + 1)).isSome
      = true) :
    1 ≤ nodesExpandedOf (branch_and_bound_tsp D n time_limit clock
      (fuel + 1)) := by
  obtain ⟨st2, hrun⟩ := Option.isSome_iff_exists.mp hs
  have hne : nodesExpandedOf (branch_and_bound_tsp D n time_limit clock
      (fuel + 1)) = st2.res.nodes_expanded := by
    rw [hrun]
    rfl
  rw [hne]
  unfold branch_and_bound_tsp at hrun
  cases hinit : initState D n with
  | none => rw [hinit] at hrun; simp at hrun
  | some st0 =>
    rw [hinit] at hrun
    dsimp only at hrun
    obtain ⟨⟨nd0, hheap0⟩, hexp0⟩ := initState_shape hinit
    simp only [bbLoop] at hrun
    rw [hheap0] at hrun
    simp only [List.isEmpty_cons, Bool.false_eq_true, if_false] at hrun
    rw [if_neg hclk] at hrun
    cases hstep : bbStep D n st0 with
    | none => rw [hstep] at hrun; simp at hrun
    | some st1 =>
      rw [hstep] at hrun
      dsimp only at hrun
      have h1 := bbStep_expanded_pos (by rw [hheap0]; simp) hstep
      have h2 := bbLoop_expanded fuel 1 hrun
      omega

/-- Witness for `first_check_within_limit_expands`: time limit 0 with a
clock that still reads 0 at the first check. -/
theorem first_check_within_limit_expands_witness :
    ¬ ((0 : ℚ) < (fun _ => (0 : ℚ)) 0) ∧
    1 ≤ nodesExpandedOf (branch_and_bound_tsp M3 3 0 (fun _ => 0)
      (99 + 1)) :=
  ⟨by norm_num,
    first_check_within_limit_expands M3 3 0 (fun _ => 0) 99 (by norm_num)
      (by norm_num [branch_and_bound_tsp, initState, bbLoop, bbStep,
        popMin, findMin, nodeLtB, cmpThen, qltB, listLtB, children,
        lower_bound_two_min_edges, sumTwoMins, twoSmallest, sortAsc,
        insertAsc, ltOpt, geOpt, M3, matOf, List.range, List.range.loop])⟩

/-- C9: incumbent coherence. In any state the solver returns, an absent
`best_tour` forces `best_cost = +∞` (`none`), and a present `best_tour` is
a complete path (a permutation of all cities starting at 0) closed by its
first city, with `best_cost` exactly the edge-cost sum along it; the loop
invariant lemmas show this holds at every point of the search. -/
theorem incumbent_coherent (D : ℕ → ℕ → ℚ) (n : ℕ) (time_limit : ℚ)
    (clock : ℕ → ℚ) (fuel : ℕ) (hn : 1 ≤ n)
    (hs : (branch_and_bound_tsp D n time_limit clock fuel).isSome = true) :
    (bestTourOf (branch_and_bound_tsp D n time_limit clock fuel) = none →
      bestCostOf (branch_and_bound_tsp D n time_limit clock fuel) = none) ∧
    ∀ t, bestTourOf (branch_and_bound_tsp D n time_limit clock fuel)
        = some t →
      ∃ p, t = p ++ [0] ∧ p.head? = some 0 ∧ List.Perm p (List.range n) ∧
        bestCostOf (branch_and_bound_tsp D n time_limit clock fuel)
          = some (pathCost D t) := by
  obtain ⟨st2, hrun⟩ := Option.isSome_iff_exists.mp hs
  have hbt : bestTourOf (branch_and_bound_tsp D n time_limit clock fuel)
      = st2.res.best_tour := by
    unfold bestTourOf
    rw [hrun]
    rfl
  have hbc : bestCostOf (branch_and_bound_tsp D n time_limit clock fuel)
      = st2.res.best_cost := by
    unfold bestCostOf
    rw [hrun]
    rfl
  rw [hbt, hbc]
  unfold branch_and_bound_tsp at hrun
  cases hinit : initState D n with
  | none => rw [hinit] at hrun; simp at hrun
  | some st0 =>
    rw [hinit] at hrun
    dsimp only at hrun
    exact (bbLoop_inv fuel 0 (initState_inv hn hinit) hrun).2

/-- Witness for `incumbent_coherent` on the 3-city run. -/
theorem incumbent_coherent_witness :
    (1 : ℕ) ≤ 3 ∧
    ((bestTourOf (branch_and_bound_tsp M3 3 1000 (fun _ => 0) 100) = none →
      bestCostOf (branch_and_bound_tsp M3 3 1000 (fun _ => 0) 100) = none) ∧
    ∀ t, bestTourOf (branch_and_bound_tsp M3 3 1000 (fun _ => 0) 100)
        = some t →
      ∃ p, t = p ++ [0] ∧ p.head? = some 0 ∧ List.Perm p (List.range 3) ∧
        bestCostOf (branch_and_bound_tsp M3 3 1000 (fun _ => 0) 100)
          = some (pathCost M3 t)) :=
  ⟨by norm_num,
    incumbent_coherent M3 3 1000 (fun _ => 0) 100 (by norm_num)
      (by norm_num [branch_and_bound_tsp, initState, bbLoop, bbStep,
        popMin, findMin, nodeLtB, cmpThen, qltB, listLtB, children,
        lower_bound_two_min_edges, sumTwoMins, twoSmallest, sortAsc,
        insertAsc, ltOpt, geOpt, M3, matOf, List.range, List.range.loop])⟩

/-- C10: on a nonempty path whose unvisited cities are all in range, the
bound computation succeeds (no out-of-range `mins[1]` access) precisely
when the unvisited set is empty or the matrix has at least 3 cities. -/
theorem lower_bound_total_iff (D : ℕ → ℕ → ℚ) (n : ℕ) (path : List ℕ)
    (cost : ℚ) (unvisited : List ℕ) (start last : ℕ)
    (hlast : path.getLast? = some last)
    (hrange : ∀ i ∈ unvisited, i < n) :
    (lower_bound_two_min_edges D n path cost unvisited start).isSome = true
      ↔ (unvisited = [] ∨ 3 ≤ n) := by
  unfold lower_bound_two_min_edges
  rw [hlast]
  dsimp only
  cases hs : sumTwoMins D n unvisited with
  | none =>
    simp only [Option.isSome_none, Bool.false_eq_true, false_iff]
    intro hcon
    rcases hcon with rfl | h3
    · simp [sumTwoMins] at hs
    · have h4 : (sumTwoMins D n unvisited).isSome = true :=
        sumTwoMins_isSome_iff.mpr
          (fun i hi => (twoSmallest_isSome_iff (hrange i hi)).mpr h3)
      rw [hs] at h4
      simp at h4
  | some s =>
    simp only [Option.isSome_some, true_iff]
    cases unvisited with
    | nil => exact Or.inl rfl
    | cons u us =>
      right
      have h1 : (sumTwoMins D n (u :: us)).isSome = true := by
        rw [hs]
        rfl
      have h2 := sumTwoMins_isSome_iff.mp h1 u (List.mem_cons_self u us)
      exact (twoSmallest_isSome_iff (hrange u (List.mem_cons_self u us))).mp h2

/-- Witness for `lower_bound_total_iff` at the initial node of the 3-city
matrix: with n = 3 the bound computes. -/
theorem lower_bound_total_iff_witness :
    (([0] : List ℕ).getLast? = some 0) ∧
    (∀ i ∈ ([1, 2] : List ℕ), i < 3) ∧
    ((lower_bound_two_min_edges M3 3 [0] 0 [1, 2] 0).isSome = true
      ↔ (([1, 2] : List ℕ) = [] ∨ 3 ≤ 3)) :=
  ⟨by norm_num, by decide,
    lower_bound_total_iff M3 3 [0] 0 [1, 2] 0 0 (by norm_num) (by decide)⟩
